import Mathlib

/-!
Verification of the PC-DARTS search-space cell (`PCDARTSSearchSpace` in
`src/pc_darts.py`) against its specification.

The embedding below translates the constructor and the `forward` method of
`PCDARTSSearchSpace`.  Feature maps (PyTorch 4-d tensors) are modelled as a
shape quadruple `(batch, channels, height, width)` together with a total data
function on natural-number indices; values outside the declared shape are
irrelevant junk.  Randomness (`torch.randn` initialisation of the architecture
parameters and of the convolution kernels) is modelled by universally
quantifying over an arbitrary initialiser function.
-/

open Real

noncomputable section

/-- A 4-dimensional feature map `(batch, channels, height, width)` with a total
data function; entries outside the declared shape carry no meaning. -/
structure Tensor where
  batch : ℕ
  channels : ℕ
  height : ℕ
  width : ℕ
  data : ℕ → ℕ → ℕ → ℕ → ℝ

/-- The all-zero scalar tensor, used as the out-of-range list default. -/
def Tensor.zero : Tensor :=
  ⟨0, 0, 0, 0, fun _ _ _ _ => 0⟩

/-- Scalar multiplication `c * t`, as in `op_weights[j] * op(states[i])`. -/
def Tensor.scale (c : ℝ) (t : Tensor) : Tensor :=
  { t with data := fun b ch y x => c * t.data b ch y x }

/-- Elementwise tensor addition (summands always share a shape in this code,
and the result takes the left operand's shape metadata). -/
def Tensor.add (a b : Tensor) : Tensor :=
  { a with data := fun i c y x => a.data i c y x + b.data i c y x }

/-- Python's `sum(list_of_tensors)`: the base case `0 + t` broadcasts to `t`,
so a nonempty list folds elementwise addition from its head. -/
def sumTensors : List Tensor → Tensor
  | [] => Tensor.zero
  | h :: t => t.foldl Tensor.add h

/-- Shape quadruple of a tensor. -/
def Tensor.shape (t : Tensor) : ℕ × ℕ × ℕ × ℕ :=
  (t.batch, t.channels, t.height, t.width)

/-- Zero padding of `t` by `p` on each spatial side: position `(u, v)` of the
padded map reads `t` at `(u - p, v - p)` when in bounds and is `0` otherwise. -/
def paddedAt (t : Tensor) (p b c u v : ℕ) : ℝ :=
  if p ≤ u ∧ u < t.height + p ∧ p ≤ v ∧ v < t.width + p then
    t.data b c (u - p) (v - p)
  else 0

/-- `nn.Identity()`: returns its input unchanged. -/
def identityOp : Tensor → Tensor :=
  fun t => t

/-- `nn.Conv2d(cin, cout, kernel_size=k, padding=p, bias=False)` with stride 1
and kernel weights `W : out_channel → in_channel → dy → dx → ℝ`.  The output
spatial extent is `H + 2p - k + 1` (written so that truncated ℕ subtraction
happens last). -/
def conv2d (cout cin k p : ℕ) (W : ℕ → ℕ → ℕ → ℕ → ℝ) (t : Tensor) : Tensor :=
  { batch := t.batch
    channels := cout
    height := t.height + 2 * p + 1 - k
    width := t.width + 2 * p + 1 - k
    data := fun b c y x =>
      ∑ cp ∈ Finset.range cin, ∑ dy ∈ Finset.range k, ∑ dx ∈ Finset.range k,
        W c cp dy dx * paddedAt t p b cp (y + dy) (x + dx) }

/-- Maximum of a list of reals, defaulting to `0` on the empty list (the empty
case is never reached for in-bounds pooling outputs). -/
def maxListD : List ℝ → ℝ
  | [] => 0
  | h :: t => t.foldl max h

/-- In-bounds values of the 3×3, padding-1 window of `t` centred at `(y, x)`:
offsets `(dy, dx) ∈ {0,1,2}²` address padded position `(y + dy, x + dx)`, and
out-of-bounds positions are dropped (max pooling ignores its padding). -/
def poolWindow (t : Tensor) (b c y x : ℕ) : List ℝ :=
  ((List.range 3).flatMap fun dy => (List.range 3).map fun dx => (y + dy, x + dx)).filterMap
    fun uv =>
      if 1 ≤ uv.1 ∧ uv.1 < t.height + 1 ∧ 1 ≤ uv.2 ∧ uv.2 < t.width + 1 then
        some (t.data b c (uv.1 - 1) (uv.2 - 1))
      else none

/-- `nn.MaxPool2d(kernel_size=3, stride=1, padding=1)`: the maximum over the
in-bounds part of each 3×3 window; spatial extent `H + 2 - 3 + 1 = H`. -/
def maxPool3 (t : Tensor) : Tensor :=
  { t with
    height := t.height + 2 * 1 + 1 - 3
    width := t.width + 2 * 1 + 1 - 3
    data := fun b c y x => maxListD (poolWindow t b c y x) }

/-- `nn.AvgPool2d(kernel_size=3, stride=1, padding=1)` with the default
`count_include_pad=True`: the zero-padded window sum divided by 9. -/
def avgPool3 (t : Tensor) : Tensor :=
  { t with
    height := t.height + 2 * 1 + 1 - 3
    width := t.width + 2 * 1 + 1 - 3
    data := fun b c y x =>
      (∑ dy ∈ Finset.range 3, ∑ dx ∈ Finset.range 3,
        paddedAt t 1 b c (y + dy) (x + dx)) / 9 }

/-- The fixed candidate-operation registry built in `__init__`: identity,
3×3 convolution (padding 1), 1×1 convolution, 3×3 max pool, 3×3 average pool,
all channel-preserving for inputs with `in_channels` channels.  `W3` and `W1`
are the (randomly initialised) kernels of the two convolutions. -/
def candidateOperationsOf (in_channels : ℕ) (W3 W1 : ℕ → ℕ → ℕ → ℕ → ℝ) :
    List (Tensor → Tensor) :=
  [ identityOp,
    conv2d in_channels in_channels 3 1 W3,
    conv2d in_channels in_channels 1 0 W1,
    maxPool3,
    avgPool3 ]

/-- `F.softmax(v, dim=-1)` on a one-dimensional weight vector. -/
def softmaxVec (w : List ℝ) : List ℝ :=
  w.map fun a => Real.exp a / (w.map Real.exp).sum

/-- State of a `PCDARTSSearchSpace` module: the three constructor arguments,
the architecture-parameter store (for node `i`, a `(i+2) × num_ops` matrix as
a list of rows), and the candidate-operation list. -/
structure PCDARTSSearchSpace where
  num_nodes : ℕ
  num_ops : ℕ
  in_channels : ℕ
  arch_parameters : List (List (List ℝ))
  candidate_operations : List (Tensor → Tensor)

/-- `PCDARTSSearchSpace.__init__`: stores the configuration, builds
`arch_parameters` as `[torch.randn(i + 2, num_ops) for i in range(num_nodes)]`
(with `randn i r j` the sampled entry at node `i`, row `r`, column `j`), and
builds the five-operation registry.  The constructor performs no validation
of `num_nodes`, `num_ops` or `in_channels`. -/
def PCDARTSSearchSpace.init (num_nodes num_ops in_channels : ℕ)
    (randn : ℕ → ℕ → ℕ → ℝ) (W3 W1 : ℕ → ℕ → ℕ → ℕ → ℝ) : PCDARTSSearchSpace :=
  { num_nodes := num_nodes
    num_ops := num_ops
    in_channels := in_channels
    arch_parameters := (List.range num_nodes).map fun i =>
      (List.range (i + 2)).map fun r => (List.range num_ops).map fun j => randn i r j
    candidate_operations := candidateOperationsOf in_channels W3 W1 }

/-- The `node_inputs` list built by the two inner loops of `forward` for one
node: for each `i in range(min(node + 2, len(states)))` it appends, for each
`(j, op) in enumerate(candidate_operations)`,
`op_weights[j] * op(states[i])` where
`op_weights = F.softmax(arch_parameters[node][i], dim=-1)`. -/
def PCDARTSSearchSpace.nodeInputs (m : PCDARTSSearchSpace) (states : List Tensor)
    (node : ℕ) : List Tensor :=
  (List.range (min (node + 2) states.length)).flatMap fun i =>
    m.candidate_operations.enum.map fun jop =>
      Tensor.scale
        ((softmaxVec ((m.arch_parameters.getD node []).getD i [])).getD jop.1 0)
        (jop.2 (states.getD i Tensor.zero))

/-- `states.append(sum(node_inputs))`: the output of one node. -/
def PCDARTSSearchSpace.nodeOutput (m : PCDARTSSearchSpace) (states : List Tensor)
    (node : ℕ) : Tensor :=
  sumTensors (m.nodeInputs states node)

/-- The `states` list of `forward` after processing the first `n` nodes:
it starts as `[x]` and each processed node appends its output. -/
def PCDARTSSearchSpace.statesAfter (m : PCDARTSSearchSpace) (x : Tensor) :
    ℕ → List Tensor
  | 0 => [x]
  | n + 1 =>
    let s := m.statesAfter x n
    s ++ [m.nodeOutput s n]

/-- `PCDARTSSearchSpace.forward`: run every node and return `states[-1]`. -/
def PCDARTSSearchSpace.forward (m : PCDARTSSearchSpace) (x : Tensor) : Tensor :=
  (m.statesAfter x m.num_nodes).getLastD x

/-- State-passing form of `forward`: the method body contains no assignment to
any field of `self`, so the post-state is the pre-state unchanged. -/
def PCDARTSSearchSpace.forwardS (m : PCDARTSSearchSpace) (x : Tensor) :
    Tensor × PCDARTSSearchSpace :=
  (m.forward x, m)

/-- One mixture edge as described by the forward loops: the softmax-weighted
sum over all candidate operations applied to one source state. -/
def mixtureEdge (ops : List (Tensor → Tensor)) (s : Tensor) (w : List ℝ) : Tensor :=
  sumTensors (ops.enum.map fun jop =>
    Tensor.scale ((softmaxVec w).getD jop.1 0) (jop.2 s))

/-! Helper lemmas about the embedding. -/

theorem List.getD_append_left' {α : Type} (l l2 : List α) (i : ℕ) (d : α)
    (h : i < l.length) : (l ++ l2).getD i d = l.getD i d := by
  rw [List.getD_eq_getElem _ _ (by simp; omega), List.getD_eq_getElem _ _ h]
  exact List.getElem_append_left h

theorem getD_map_range {α : Type} (dflt : α) (f : ℕ → α) (n k : ℕ) (h : k < n) :
    ((List.range n).map f).getD k dflt = f k := by
  rw [List.getD_eq_getElem _ _ (by simpa using h)]
  simp

theorem getD_mem_of_lt {α : Type} (l : List α) (i : ℕ) (d : α) (h : i < l.length) :
    l.getD i d ∈ l := by
  rw [List.getD_eq_getElem _ _ h]
  exact List.getElem_mem h

theorem sumTensors_nil : sumTensors [] = Tensor.zero := rfl

theorem foldl_add_data (l : List Tensor) (a : Tensor) (b c y x : ℕ) :
    (l.foldl Tensor.add a).data b c y x
      = a.data b c y x + (l.map fun t => t.data b c y x).sum := by
  induction l generalizing a with
  | nil => simp
  | cons h t ih =>
    simp only [List.foldl_cons, List.map_cons, List.sum_cons, ih, Tensor.add]
    ring

/-- The data of a Python `sum` of tensors is the pointwise sum of the data. -/
theorem sumTensors_data (l : List Tensor) (b c y x : ℕ) :
    (sumTensors l).data b c y x = (l.map fun t => t.data b c y x).sum := by
  cases l with
  | nil => simp [sumTensors, Tensor.zero]
  | cons h t => simp [sumTensors, foldl_add_data]

theorem foldl_add_shape (l : List Tensor) (a : Tensor) :
    (l.foldl Tensor.add a).shape = a.shape := by
  induction l generalizing a with
  | nil => rfl
  | cons h t ih => rw [List.foldl_cons, ih]; rfl

theorem sumTensors_shape (h : Tensor) (t : List Tensor) :
    (sumTensors (h :: t)).shape = h.shape :=
  foldl_add_shape t h

theorem sum_flatMap {α : Type} (g : α → List ℝ) (l : List α) :
    (l.flatMap g).sum = (l.map fun a => (g a).sum).sum := by
  induction l with
  | nil => rfl
  | cons h t ih => simp [List.flatMap_cons, List.sum_append, ih]

theorem range_map_sum (n : ℕ) (f : ℕ → ℝ) :
    ((List.range n).map f).sum = ∑ i ∈ Finset.range n, f i := by
  induction n with
  | zero => rfl
  | succ m ih => rw [List.range_succ, Finset.sum_range_succ]; simp [ih]

theorem enumFrom_map_sum {α : Type} (f : ℕ × α → ℝ) (d : α) :
    ∀ (l : List α) (k : ℕ),
      ((List.enumFrom k l).map f).sum
        = ∑ j ∈ Finset.range l.length, f (k + j, l.getD j d)
  | [], k => by simp
  | h :: t, k => by
    rw [show List.enumFrom k (h :: t) = (k, h) :: List.enumFrom (k + 1) t from rfl,
      List.map_cons, List.sum_cons, enumFrom_map_sum f d t (k + 1),
      List.length_cons, Finset.sum_range_succ']
    simp only [List.getD_cons_succ, List.getD_cons_zero, Nat.add_zero]
    rw [add_comm]
    congr 1
    refine Finset.sum_congr rfl fun j _ => ?_
    have h1 : k + 1 + j = k + (j + 1) := by omega
    rw [h1]

theorem enum_map_sum {α : Type} (f : ℕ × α → ℝ) (d : α) (l : List α) :
    (l.enum.map f).sum = ∑ j ∈ Finset.range l.length, f (j, l.getD j d) := by
  have h := enumFrom_map_sum f d l 0
  simpa using h

/-- Elementwise description of one mixture edge: the softmax-weighted sum,
over operation indices, of the operations applied to the source. -/
theorem mixtureEdge_data (ops : List (Tensor → Tensor)) (s : Tensor) (w : List ℝ)
    (b c y x : ℕ) :
    (mixtureEdge ops s w).data b c y x
      = ∑ j ∈ Finset.range ops.length,
          (softmaxVec w).getD j 0 * ((ops.getD j identityOp) s).data b c y x := by
  rw [mixtureEdge, sumTensors_data, List.map_map]
  simp only [Function.comp_def]
  rw [enum_map_sum (fun jop : ℕ × (Tensor → Tensor) =>
    (Tensor.scale ((softmaxVec w).getD jop.1 0) (jop.2 s)).data b c y x) identityOp ops]
  rfl

/-- The length of the `states` list after `n` processed nodes is `n + 1`. -/
theorem statesAfter_length (m : PCDARTSSearchSpace) (x : Tensor) (n : ℕ) :
    (m.statesAfter x n).length = n + 1 := by
  induction n with
  | zero => rfl
  | succ k ih => simp [PCDARTSSearchSpace.statesAfter, ih]

theorem statesAfter_succ (m : PCDARTSSearchSpace) (x : Tensor) (n : ℕ) :
    m.statesAfter x (n + 1)
      = m.statesAfter x n ++ [m.nodeOutput (m.statesAfter x n) n] := rfl

theorem statesAfter_ne_nil (m : PCDARTSSearchSpace) (x : Tensor) (n : ℕ) :
    m.statesAfter x n ≠ [] := by
  intro h
  have := statesAfter_length m x n
  rw [h] at this
  simp at this

/-- Elementwise description of one node's output: the sum, over the evaluated
source indices, of the corresponding mixture-edge outputs. -/
theorem nodeOutput_data (m : PCDARTSSearchSpace) (states : List Tensor) (node : ℕ)
    (b c y x : ℕ) :
    (m.nodeOutput states node).data b c y x
      = ∑ i ∈ Finset.range (min (node + 2) states.length),
          (mixtureEdge m.candidate_operations (states.getD i Tensor.zero)
            ((m.arch_parameters.getD node []).getD i [])).data b c y x := by
  rw [PCDARTSSearchSpace.nodeOutput, sumTensors_data, PCDARTSSearchSpace.nodeInputs,
    List.map_flatMap, sum_flatMap, range_map_sum]
  refine Finset.sum_congr rfl fun i _ => ?_
  rw [mixtureEdge, sumTensors_data, List.map_map]

theorem softmax_denom_pos (w : List ℝ) (hw : w ≠ []) : 0 < (w.map Real.exp).sum := by
  refine List.sum_pos _ ?_ (by simpa using hw)
  intro a ha
  obtain ⟨b, _, rfl⟩ := List.mem_map.mp ha
  exact Real.exp_pos b

/-- The softmax of a nonempty weight vector sums to `1`. -/
theorem softmaxVec_sum (w : List ℝ) (hw : w ≠ []) : (softmaxVec w).sum = 1 := by
  have hpos := softmax_denom_pos w hw
  rw [softmaxVec]
  rw [show (fun a => Real.exp a / (w.map Real.exp).sum)
      = fun a => Real.exp a * ((w.map Real.exp).sum)⁻¹ from by
    funext a; rw [div_eq_mul_inv]]
  have h2 : (w.map fun a => Real.exp a * ((w.map Real.exp).sum)⁻¹).sum
      = (w.map Real.exp).sum * ((w.map Real.exp).sum)⁻¹ := by
    rw [← List.sum_map_mul_right]
  rw [h2]
  exact mul_inv_cancel₀ hpos.ne'

/-- Every entry of the softmax of a nonempty weight vector is positive. -/
theorem softmaxVec_pos (w : List ℝ) (hw : w ≠ []) : ∀ p ∈ softmaxVec w, 0 < p := by
  intro p hp
  obtain ⟨a, _, rfl⟩ := List.mem_map.mp hp
  exact div_pos (Real.exp_pos a) (softmax_denom_pos w hw)


theorem getD_append_last {α : Type} (l : List α) (a d : α) :
    (l ++ [a]).getD l.length d = a := by
  rw [List.getD_eq_getElem _ _ (by simp)]
  simp

theorem getLastD_append_single {α : Type} (l : List α) (a d : α) :
    (l ++ [a]).getLastD d = a := by
  simp

theorem list_flatMap_congr {α β : Type} (l : List α) (f g : α → List β)
    (h : ∀ a ∈ l, f a = g a) : l.flatMap f = l.flatMap g := by
  induction l with
  | nil => rfl
  | cons hd t ih =>
    rw [List.flatMap_cons, List.flatMap_cons, h hd (by simp), ih fun a ha => h a (by simp [ha])]

theorem nodeInputs_length (m : PCDARTSSearchSpace) (s : List Tensor) (node : ℕ) :
    (m.nodeInputs s node).length
      = min (node + 2) s.length * m.candidate_operations.length := by
  rw [PCDARTSSearchSpace.nodeInputs, List.length_flatMap]
  simp [Function.comp_def, List.enum_length, List.map_const', List.sum_replicate,
    smul_eq_mul]

theorem scale_shape (c : ℝ) (t : Tensor) : (Tensor.scale c t).shape = t.shape := rfl

/-- Every operation of the registry preserves the shape of any input whose
channel count matches the registry's construction channel count. -/
theorem registry_shape (C : ℕ) (W3 W1 : ℕ → ℕ → ℕ → ℕ → ℝ)
    (op : Tensor → Tensor) (hop : op ∈ candidateOperationsOf C W3 W1)
    (t : Tensor) (hc : t.channels = C) : (op t).shape = t.shape := by
  rw [Tensor.shape, Tensor.shape]
  simp only [candidateOperationsOf, List.mem_cons, List.not_mem_nil, or_false] at hop
  rcases hop with h | h | h | h | h <;> subst h
  · rfl
  · simp [conv2d, hc]
  · simp [conv2d, hc]
  · simp [maxPool3]
  · simp [avgPool3]

theorem sumTensors_shape_of_all (l : List Tensor) (S : ℕ × ℕ × ℕ × ℕ)
    (hne : l ≠ []) (hall : ∀ t ∈ l, t.shape = S) : (sumTensors l).shape = S := by
  cases l with
  | nil => exact absurd rfl hne
  | cons h t => rw [sumTensors_shape]; exact hall h (by simp)

/-- Every element of `node_inputs` is a weighted operation output on one of
the current states. -/
theorem nodeInputs_mem (m : PCDARTSSearchSpace) (s : List Tensor) (node : ℕ)
    (u : Tensor) (hu : u ∈ m.nodeInputs s node) :
    ∃ op ∈ m.candidate_operations, ∃ i < s.length, ∃ c : ℝ,
      u = Tensor.scale c (op (s.getD i Tensor.zero)) := by
  rw [PCDARTSSearchSpace.nodeInputs] at hu
  obtain ⟨i, hi, hu⟩ := List.mem_flatMap.mp hu
  obtain ⟨jop, hjop, rfl⟩ := List.mem_map.mp hu
  have hop : jop.2 ∈ m.candidate_operations := by
    have hg := List.mem_enum_iff_getElem?.mp hjop
    exact List.getElem?_mem hg
  refine ⟨jop.2, hop, i, ?_, _, rfl⟩
  have := List.mem_range.mp hi
  omega

/-- All states produced by `forward` on a cell built by `__init__` keep the
shape of the input, provided the input's channel count matches the registry. -/
theorem statesAfter_shape (nn no ic : ℕ) (randn : ℕ → ℕ → ℕ → ℝ)
    (W3 W1 : ℕ → ℕ → ℕ → ℕ → ℝ) (x : Tensor) (hc : x.channels = ic) :
    ∀ n, ∀ t ∈ (PCDARTSSearchSpace.init nn no ic randn W3 W1).statesAfter x n,
      t.shape = x.shape := by
  intro n
  induction n with
  | zero =>
    intro t ht
    rw [show (PCDARTSSearchSpace.init nn no ic randn W3 W1).statesAfter x 0 = [x]
      from rfl] at ht
    simp only [List.mem_singleton] at ht
    rw [ht]
  | succ d ih =>
    intro t ht
    rw [statesAfter_succ] at ht
    rcases List.mem_append.mp ht with hmem | hmem
    · exact ih t hmem
    · simp only [List.mem_singleton] at hmem
      subst hmem
      set m := PCDARTSSearchSpace.init nn no ic randn W3 W1 with hm
      set s := m.statesAfter x d with hsdef
      have hlen : s.length = d + 1 := statesAfter_length m x d
      refine sumTensors_shape_of_all _ _ ?_ ?_
      · intro hnil
        have h0 := nodeInputs_length m s d
        rw [hnil] at h0
        simp only [List.length_nil] at h0
        rw [hlen] at h0
        have hops : m.candidate_operations.length = 5 := rfl
        rw [hops] at h0
        omega
      · intro u hu
        obtain ⟨op, hop, i, hilt, cc, rfl⟩ := nodeInputs_mem m s d u hu
        rw [scale_shape]
        have hst : (s.getD i Tensor.zero) ∈ s := getD_mem_of_lt s i Tensor.zero hilt
        have hsh : (s.getD i Tensor.zero).shape = x.shape := ih _ hst
        have hch : (s.getD i Tensor.zero).channels = ic := by
          have h1 : (s.getD i Tensor.zero).shape = x.shape := hsh
          rw [Tensor.shape, Tensor.shape] at h1
          have := congrArg (fun q => q.2.1) h1
          simpa [hc] using this
        rw [registry_shape ic W3 W1 op hop _ hch]
        exact hsh

/-- If two initialisers agree on every architecture-parameter entry that
`forward` can read (node `n`, row `i ≤ n`), the whole state list agrees. -/
theorem statesAfter_congr (nn no ic : ℕ) (r1 r2 : ℕ → ℕ → ℕ → ℝ)
    (W3 W1 : ℕ → ℕ → ℕ → ℕ → ℝ)
    (hagree : ∀ n i j, n < nn → i ≤ n → r1 n i j = r2 n i j) (x : Tensor) :
    ∀ c, c ≤ nn →
      (PCDARTSSearchSpace.init nn no ic r1 W3 W1).statesAfter x c
        = (PCDARTSSearchSpace.init nn no ic r2 W3 W1).statesAfter x c := by
  intro c
  induction c with
  | zero => intro _; rfl
  | succ d ih =>
    intro hd
    have hdlt : d < nn := by omega
    have hs := ih (by omega)
    rw [statesAfter_succ, statesAfter_succ, hs]
    set s := (PCDARTSSearchSpace.init nn no ic r2 W3 W1).statesAfter x d with hsdef
    have hlen : s.length = d + 1 := statesAfter_length _ x d
    congr 1
    rw [PCDARTSSearchSpace.nodeOutput, PCDARTSSearchSpace.nodeOutput]
    congr 1
    rw [PCDARTSSearchSpace.nodeInputs, PCDARTSSearchSpace.nodeInputs]
    congr 1
    refine list_flatMap_congr _ _ _ fun i hi => ?_
    have hilt : i < d + 1 := by
      have := List.mem_range.mp hi
      omega
    have harch : ((PCDARTSSearchSpace.init nn no ic r1 W3 W1).arch_parameters.getD d
        []).getD i []
        = ((PCDARTSSearchSpace.init nn no ic r2 W3 W1).arch_parameters.getD d
        []).getD i [] := by
      rw [show (PCDARTSSearchSpace.init nn no ic r1 W3 W1).arch_parameters
          = (List.range nn).map (fun n =>
            (List.range (n + 2)).map fun r => (List.range no).map fun j => r1 n r j)
          from rfl,
        show (PCDARTSSearchSpace.init nn no ic r2 W3 W1).arch_parameters
          = (List.range nn).map (fun n =>
            (List.range (n + 2)).map fun r => (List.range no).map fun j => r2 n r j)
          from rfl]
      rw [getD_map_range _ _ _ _ hdlt, getD_map_range _ _ _ _ hdlt,
        getD_map_range _ _ _ _ (by omega : i < d + 2),
        getD_map_range _ _ _ _ (by omega : i < d + 2)]
      refine List.map_congr_left fun j _ => ?_
      exact hagree d i j hdlt (by omega)
    rw [harch]
    rfl

/-- Softmax of a single-entry weight vector is the weight `1`. -/
theorem softmaxVec_singleton (a : ℝ) : (softmaxVec [a]).getD 0 0 = 1 := by
  simp [softmaxVec, div_self, Real.exp_ne_zero]

/-- The Scenario-3 cell: the same `forward` algorithm and parameter layout,
with the operation registry replaced by the single identity candidate and
`num_ops = 1` (the claim's premised configuration; the source file itself
hard-wires the five-operation registry). -/
def idRegistryCell (num_nodes : ℕ) (randn : ℕ → ℕ → ℕ → ℝ) : PCDARTSSearchSpace :=
  { num_nodes := num_nodes
    num_ops := 1
    in_channels := 1
    arch_parameters := (List.range num_nodes).map fun i =>
      (List.range (i + 2)).map fun r => (List.range 1).map fun j => randn i r j
    candidate_operations := [identityOp] }

/-- Multiplier of the input carried by state `i` of the identity-only cell:
state `0` is the input itself and state `i + 1` carries `2 ^ i` copies. -/
def idCoef : ℕ → ℝ
  | 0 => 1
  | i + 1 => 2 ^ i

theorem idCoef_sum (n : ℕ) : ∑ i ∈ Finset.range (n + 1), idCoef i = 2 ^ n := by
  induction n with
  | zero => simp [idCoef]
  | succ d ih => rw [Finset.sum_range_succ, ih]; rw [show idCoef (d + 1) = 2 ^ d from rfl]; ring

/-- Closed form for the identity-only cell: state `i` of the forward pass
carries `idCoef i` copies of the input, elementwise. -/
theorem idCell_states_data (N : ℕ) (randn : ℕ → ℕ → ℕ → ℝ) (x : Tensor)
    (b c y xx : ℕ) :
    ∀ n, n ≤ N → ∀ i, i ≤ n →
      (((idRegistryCell N randn).statesAfter x n).getD i Tensor.zero).data b c y xx
        = idCoef i * x.data b c y xx := by
  intro n
  induction n with
  | zero =>
    intro _ i hi
    have hz : i = 0 := by omega
    subst hz
    rw [show (idRegistryCell N randn).statesAfter x 0 = [x] from rfl]
    simp [idCoef]
  | succ d ih =>
    intro hN i hi
    rw [statesAfter_succ]
    set m := idRegistryCell N randn with hm
    have hlen := statesAfter_length m x d
    by_cases hle : i ≤ d
    · rw [List.getD_append_left' _ _ _ _ (by omega)]
      exact ih (by omega) i hle
    · have hieq : i = d + 1 := by omega
      subst hieq
      have hgl : (m.statesAfter x d
            ++ [m.nodeOutput (m.statesAfter x d) d]).getD (d + 1) Tensor.zero
          = m.nodeOutput (m.statesAfter x d) d := by
        rw [← hlen]
        exact getD_append_last _ _ _
      rw [hgl, nodeOutput_data, hlen, min_eq_right (by omega : d + 1 ≤ d + 2)]
      have hterm : ∀ ip ∈ Finset.range (d + 1),
          (mixtureEdge m.candidate_operations
            ((m.statesAfter x d).getD ip Tensor.zero)
            ((m.arch_parameters.getD d []).getD ip [])).data b c y xx
          = idCoef ip * x.data b c y xx := by
        intro ip hip
        have hiplt : ip < d + 1 := Finset.mem_range.mp hip
        rw [mixtureEdge_data]
        rw [show m.candidate_operations.length = 1 from rfl, Finset.sum_range_one]
        have harch : (m.arch_parameters.getD d []).getD ip [] = [randn d ip 0] := by
          rw [show m.arch_parameters = (List.range N).map (fun nd =>
              (List.range (nd + 2)).map fun r =>
                (List.range 1).map fun j => randn nd r j) from rfl]
          rw [getD_map_range _ _ _ _ (by omega : d < N),
            getD_map_range _ _ _ _ (by omega : ip < d + 2)]
          rfl
        rw [harch, softmaxVec_singleton, one_mul]
        exact ih (by omega) ip (by omega)
      rw [Finset.sum_congr rfl hterm, ← Finset.sum_mul, idCoef_sum]
      rfl

/-- The output of the identity-only cell with at least one node scales the
input elementwise by `2 ^ (num_nodes - 1)`. -/
theorem idCell_forward_data (N : ℕ) (hN : 1 ≤ N) (randn : ℕ → ℕ → ℕ → ℝ)
    (x : Tensor) (b c y xx : ℕ) :
    ((idRegistryCell N randn).forward x).data b c y xx
      = 2 ^ (N - 1) * x.data b c y xx := by
  obtain ⟨d, rfl⟩ : ∃ d, N = d + 1 := ⟨N - 1, by omega⟩
  set m := idRegistryCell (d + 1) randn with hm
  have hstates := idCell_states_data (d + 1) randn x b c y xx (d + 1) le_rfl (d + 1) le_rfl
  have hlen := statesAfter_length m x d
  rw [PCDARTSSearchSpace.forward, show m.num_nodes = d + 1 from rfl] at *
  rw [statesAfter_succ] at hstates ⊢
  rw [getLastD_append_single]
  have hgl : (m.statesAfter x d
        ++ [m.nodeOutput (m.statesAfter x d) d]).getD (d + 1) Tensor.zero
      = m.nodeOutput (m.statesAfter x d) d := by
    rw [← hlen]
    exact getD_append_last _ _ _
  rw [hgl] at hstates
  rw [hstates]
  rw [show idCoef (d + 1) = 2 ^ d from rfl]
  norm_num

theorem getLastD_mem {α : Type} (l : List α) (d : α) (h : l ≠ []) :
    l.getLastD d ∈ l := by
  cases l with
  | nil => exact absurd rfl h
  | cons a t =>
    rw [List.getLastD_eq_getLast?, List.getLast?_eq_getLast (a :: t) (by simp)]
    simp [List.getLast_mem]

/-! Concrete instances used as witnesses and counterexamples. -/

/-- Zero initialiser for the architecture parameters. -/
def zr3 : ℕ → ℕ → ℕ → ℝ := fun _ _ _ => 0

/-- Zero convolution kernels. -/
def zr4 : ℕ → ℕ → ℕ → ℕ → ℝ := fun _ _ _ _ => 0

/-- An initialiser differing from `zr3` exactly on node 0, row 1. -/
def zr3off : ℕ → ℕ → ℕ → ℝ := fun n r _ => if n = 0 ∧ r = 1 then 1 else 0

/-- A concrete 1×1×1×1 input with constant data 1. -/
def tOne : Tensor := ⟨1, 1, 1, 1, fun _ _ _ _ => 1⟩

/-- The Scenario-1 input of shape `(2, 4, 8, 8)`. -/
def tS1 : Tensor := ⟨2, 4, 8, 8, fun _ _ _ _ => 0⟩

/-- A concrete one-node cell with the full five-operation registry. -/
def cellA : PCDARTSSearchSpace := PCDARTSSearchSpace.init 1 5 1 zr3 zr4 zr4


/-! Claim theorems. -/

/-- C1 (counterexample): at node 0 of a freshly constructed one-node cell the
inner loops evaluate only `min(0 + 2, 1) = 1` mixture edge — 5 weighted
operation outputs, one edge's worth — not the `0 + 2 = 2` edges (10 entries)
the claim asserts, because `states` holds a single entry when node 0 runs. -/
theorem C1_counterexample_node0_one_edge :
    (cellA.nodeInputs (cellA.statesAfter tOne 0) 0).length
        = 1 * cellA.candidate_operations.length
    ∧ (cellA.nodeInputs (cellA.statesAfter tOne 0) 0).length
        ≠ (0 + 2) * cellA.candidate_operations.length := by
  have h1 : (cellA.statesAfter tOne 0).length = 1 := rfl
  have h2 : cellA.candidate_operations.length = 5 := rfl
  rw [nodeInputs_length, h1, h2]
  norm_num

/-- C1 (amended): at every node `k < num_nodes` the forward pass evaluates
exactly `min(k + 2, k + 1) = k + 1` mixture edges — one per source index `i`
in `0..k` (the cell input plus the `k` earlier node outputs, which are all the
states produced so far) — and node `k`'s output is the elementwise sum of
those `k + 1` edge outputs. -/
theorem C1_edges_per_node (m : PCDARTSSearchSpace) (x : Tensor) (k : ℕ)
    (hk : k < m.num_nodes) :
    (m.statesAfter x k).length = k + 1
    ∧ min (k + 2) (m.statesAfter x k).length = k + 1
    ∧ (m.nodeInputs (m.statesAfter x k) k).length
        = (k + 1) * m.candidate_operations.length
    ∧ ∀ b c y xx,
        ((m.statesAfter x (k + 1)).getLastD x).data b c y xx
          = ∑ i ∈ Finset.range (k + 1),
              (mixtureEdge m.candidate_operations
                ((m.statesAfter x k).getD i Tensor.zero)
                ((m.arch_parameters.getD k []).getD i [])).data b c y xx := by
  have hlen := statesAfter_length m x k
  refine ⟨hlen, ?_, ?_, ?_⟩
  · rw [hlen]
    exact min_eq_right (by omega)
  · rw [nodeInputs_length, hlen, min_eq_right (by omega)]
  · intro b c y xx
    rw [statesAfter_succ, getLastD_append_single, nodeOutput_data, hlen,
      min_eq_right (by omega)]

theorem C1_edges_per_node_witness :
    (cellA.statesAfter tOne 0).length = 0 + 1
    ∧ min (0 + 2) (cellA.statesAfter tOne 0).length = 0 + 1
    ∧ (cellA.nodeInputs (cellA.statesAfter tOne 0) 0).length
        = (0 + 1) * cellA.candidate_operations.length
    ∧ ∀ b c y xx,
        ((cellA.statesAfter tOne (0 + 1)).getLastD tOne).data b c y xx
          = ∑ i ∈ Finset.range (0 + 1),
              (mixtureEdge cellA.candidate_operations
                ((cellA.statesAfter tOne 0).getD i Tensor.zero)
                ((cellA.arch_parameters.getD 0 []).getD i [])).data b c y xx :=
  C1_edges_per_node cellA tOne 0 (by norm_num [cellA, PCDARTSSearchSpace.init])

/-- C2 (code evidence): constructing with `num_nodes = 0` succeeds without any
configuration error, and the resulting cell's `forward` silently returns the
input unchanged — the node loop body never runs and `states[-1]` is `x`. -/
theorem C2_num_nodes_zero_forward_is_input (num_ops in_channels : ℕ)
    (randn : ℕ → ℕ → ℕ → ℝ) (W3 W1 : ℕ → ℕ → ℕ → ℕ → ℝ) (x : Tensor) :
    (PCDARTSSearchSpace.init 0 num_ops in_channels randn W3 W1).forward x = x := rfl

/-- C4 (code evidence): the constructor performs no validation.  With
`num_nodes = 0`, `num_ops = 3` (different from the five registry candidates)
and `in_channels = 0`, construction still succeeds and yields a cell with an
empty parameter store and the five-candidate registry. -/
theorem C4_no_construction_validation :
    (PCDARTSSearchSpace.init 0 3 0 zr3 zr4 zr4).arch_parameters = []
    ∧ (PCDARTSSearchSpace.init 0 3 0 zr3 zr4 zr4).candidate_operations.length = 5
    ∧ (PCDARTSSearchSpace.init 0 3 0 zr3 zr4 zr4).num_nodes = 0
    ∧ (PCDARTSSearchSpace.init 0 3 0 zr3 zr4 zr4).num_ops = 3 :=
  ⟨rfl, rfl, rfl, rfl⟩


/-- C3 (counterexample): in the identity-only configuration with two nodes,
the forward output is not the input: node 1 sums the edges from both previous
states, so the output doubles the input (`2 * 1 ≠ 1` at data index 0). -/
theorem C3_counterexample_two_nodes :
    (idRegistryCell 2 zr3).forward tOne ≠ tOne := by
  intro h
  have hd := congrArg (fun t => t.data 0 0 0 0) h
  have he := idCell_forward_data 2 (by norm_num) zr3 tOne 0 0 0 0
  simp only at hd
  rw [he] at hd
  rw [show tOne.data 0 0 0 0 = 1 from rfl] at hd
  norm_num at hd

/-- C3 (amended): with `num_ops = 1` and the identity operation as the only
registry candidate, each single-operation mixture edge passes its source
through unchanged, but node `k` sums the edges from all `k + 1` previous
states; hence the cell output equals `2 ^ (num_nodes - 1)` times the input
elementwise, which is the unchanged input exactly when `num_nodes = 1`. -/
theorem C3_identity_registry_scales_input (num_nodes : ℕ) (hn : 1 ≤ num_nodes)
    (randn : ℕ → ℕ → ℕ → ℝ) (x : Tensor) :
    ∀ b c y xx,
      ((idRegistryCell num_nodes randn).forward x).data b c y xx
        = 2 ^ (num_nodes - 1) * x.data b c y xx :=
  fun b c y xx => idCell_forward_data num_nodes hn randn x b c y xx

theorem C3_identity_registry_scales_input_witness :
    ((idRegistryCell 1 zr3).forward tOne).data 0 0 0 0
      = 2 ^ (1 - 1) * tOne.data 0 0 0 0 :=
  C3_identity_registry_scales_input 1 (by norm_num) zr3 tOne 0 0 0 0

/-- C5: a mixture edge equals the elementwise sum over operation indices `j`
of `softmax(weights)[j] * operation_j(source)`; each node output computed in
`forward` is the sum of such mixture edges over the evaluated source indices;
and the softmax vector sums to 1 with strictly positive entries. -/
theorem C5_mixture_edge_softmax (m : PCDARTSSearchSpace) (s : Tensor) (w : List ℝ)
    (hw : w ≠ []) :
    (∀ b c y x,
      (mixtureEdge m.candidate_operations s w).data b c y x
        = ∑ j ∈ Finset.range m.candidate_operations.length,
            (softmaxVec w).getD j 0
              * ((m.candidate_operations.getD j identityOp) s).data b c y x)
    ∧ (∀ states node b c y x,
        (m.nodeOutput states node).data b c y x
          = ∑ i ∈ Finset.range (min (node + 2) states.length),
              (mixtureEdge m.candidate_operations (states.getD i Tensor.zero)
                ((m.arch_parameters.getD node []).getD i [])).data b c y x)
    ∧ (softmaxVec w).sum = 1
    ∧ (∀ p ∈ softmaxVec w, 0 < p) :=
  ⟨fun b c y x => mixtureEdge_data m.candidate_operations s w b c y x,
   fun states node b c y x => nodeOutput_data m states node b c y x,
   softmaxVec_sum w hw,
   softmaxVec_pos w hw⟩

theorem C5_mixture_edge_softmax_witness :
    (softmaxVec [0, 0, 0, 0, 0]).sum = 1
    ∧ ∀ p ∈ softmaxVec [0, 0, 0, 0, 0], 0 < p :=
  ⟨(C5_mixture_edge_softmax cellA tOne [0, 0, 0, 0, 0]
      (List.cons_ne_nil 0 [0, 0, 0, 0])).2.2.1,
   (C5_mixture_edge_softmax cellA tOne [0, 0, 0, 0, 0]
      (List.cons_ne_nil 0 [0, 0, 0, 0])).2.2.2⟩

/-- C6: for every configuration with `num_nodes ≥ 1` and every input whose
channel count matches `in_channels`, the forward output has the input's shape
(batch, channels, height, width all unchanged). -/
theorem C6_forward_preserves_shape (num_nodes num_ops in_channels : ℕ)
    (randn : ℕ → ℕ → ℕ → ℝ) (W3 W1 : ℕ → ℕ → ℕ → ℕ → ℝ) (x : Tensor)
    (hn : 1 ≤ num_nodes) (hc : x.channels = in_channels) :
    ((PCDARTSSearchSpace.init num_nodes num_ops in_channels randn W3 W1).forward
      x).shape = x.shape := by
  rw [PCDARTSSearchSpace.forward]
  exact statesAfter_shape num_nodes num_ops in_channels randn W3 W1 x hc
    (PCDARTSSearchSpace.init num_nodes num_ops in_channels randn W3 W1).num_nodes
    _ (getLastD_mem _ _ (statesAfter_ne_nil _ x _))

theorem C6_forward_preserves_shape_witness :
    tS1.channels = 4
    ∧ ((PCDARTSSearchSpace.init 1 5 4 zr3 zr4 zr4).forward tS1).shape
        = (2, 4, 8, 8) := by
  refine ⟨rfl, ?_⟩
  rw [C6_forward_preserves_shape 1 5 4 zr3 zr4 zr4 tS1 (by norm_num) rfl]
  rfl

/-- C7: after construction with `num_nodes = n`, the parameter store holds one
matrix per node; node `k`'s matrix has exactly `k + 2` rows, each of length
`num_ops`; for `num_nodes = 3` the per-node row counts are `[2, 3, 4]`; and a
forward call leaves the store exactly as it was. -/
theorem C7_arch_parameter_store_shape (num_nodes num_ops in_channels : ℕ)
    (randn : ℕ → ℕ → ℕ → ℝ) (W3 W1 : ℕ → ℕ → ℕ → ℕ → ℝ) :
    ((PCDARTSSearchSpace.init num_nodes num_ops in_channels randn W3
        W1).arch_parameters.length = num_nodes)
    ∧ (∀ k, k < num_nodes →
        (((PCDARTSSearchSpace.init num_nodes num_ops in_channels randn W3
          W1).arch_parameters.getD k []).length = k + 2
        ∧ ∀ v ∈ (PCDARTSSearchSpace.init num_nodes num_ops in_channels randn W3
            W1).arch_parameters.getD k [], v.length = num_ops))
    ∧ ((PCDARTSSearchSpace.init 3 num_ops in_channels randn W3
        W1).arch_parameters.map List.length = [2, 3, 4])
    ∧ (∀ x, (((PCDARTSSearchSpace.init num_nodes num_ops in_channels randn W3
        W1).forwardS x).2).arch_parameters
        = (PCDARTSSearchSpace.init num_nodes num_ops in_channels randn W3
          W1).arch_parameters) := by
  refine ⟨by simp [PCDARTSSearchSpace.init], fun k hk => ?_, ?_, fun x => rfl⟩
  · have hrow : (PCDARTSSearchSpace.init num_nodes num_ops in_channels randn W3
        W1).arch_parameters.getD k []
        = (List.range (k + 2)).map fun r => (List.range num_ops).map fun j =>
          randn k r j := by
      rw [show (PCDARTSSearchSpace.init num_nodes num_ops in_channels randn W3
          W1).arch_parameters
          = (List.range num_nodes).map (fun i => (List.range (i + 2)).map fun r =>
            (List.range num_ops).map fun j => randn i r j) from rfl]
      exact getD_map_range _ _ _ _ hk
    rw [hrow]
    constructor
    · simp
    · intro v hv
      obtain ⟨r, _, rfl⟩ := List.mem_map.mp hv
      simp
  · rw [show (PCDARTSSearchSpace.init 3 num_ops in_channels randn W3
        W1).arch_parameters
        = (List.range 3).map (fun i => (List.range (i + 2)).map fun r =>
          (List.range num_ops).map fun j => randn i r j) from rfl]
    simp [List.range_succ]

theorem C7_arch_parameter_store_shape_witness :
    ((PCDARTSSearchSpace.init 3 5 4 zr3 zr4 zr4).arch_parameters.getD 1 []).length
      = 1 + 2 :=
  ((C7_arch_parameter_store_shape 3 5 4 zr3 zr4 zr4).2.1 1 (by norm_num)).1

/-- C8: `forward` never reads row `k + 1` of node `k`'s parameter matrix: two
cells whose initialisers agree everywhere except possibly at node `k`,
row `k + 1` produce identical outputs on every input. -/
theorem C8_unread_last_row (num_nodes num_ops in_channels k : ℕ)
    (hk : k < num_nodes) (r1 r2 : ℕ → ℕ → ℕ → ℝ) (W3 W1 : ℕ → ℕ → ℕ → ℕ → ℝ)
    (hagree : ∀ n i j, ¬(n = k ∧ i = k + 1) → r1 n i j = r2 n i j) (x : Tensor) :
    (PCDARTSSearchSpace.init num_nodes num_ops in_channels r1 W3 W1).forward x
      = (PCDARTSSearchSpace.init num_nodes num_ops in_channels r2 W3 W1).forward
        x := by
  have hsc := statesAfter_congr num_nodes num_ops in_channels r1 r2 W3 W1
    (fun n i j hn hi => hagree n i j (by
      rintro ⟨rfl, rfl⟩
      omega)) x num_nodes le_rfl
  rw [PCDARTSSearchSpace.forward, PCDARTSSearchSpace.forward]
  rw [show (PCDARTSSearchSpace.init num_nodes num_ops in_channels r1 W3
      W1).num_nodes = num_nodes from rfl,
    show (PCDARTSSearchSpace.init num_nodes num_ops in_channels r2 W3
      W1).num_nodes = num_nodes from rfl, hsc]

theorem C8_unread_last_row_witness :
    (PCDARTSSearchSpace.init 1 5 1 zr3 zr4 zr4).forward tOne
      = (PCDARTSSearchSpace.init 1 5 1 zr3off zr4 zr4).forward tOne :=
  C8_unread_last_row 1 5 1 0 (by norm_num) zr3 zr3off zr4 zr4
    (fun n i j hni => by
      simp only [zr3, zr3off]
      rw [if_neg (by simpa using hni)])
    tOne

/-- C9: `forward` is deterministic — equal cells and equal inputs give equal
outputs (the forward pass reads only its input and the stored parameters). -/
theorem C9_forward_deterministic (m1 m2 : PCDARTSSearchSpace) (x1 x2 : Tensor)
    (hm : m1 = m2) (hx : x1 = x2) : m1.forward x1 = m2.forward x2 := by
  subst hm
  subst hx
  rfl

theorem C9_forward_deterministic_witness :
    cellA.forward tOne = cellA.forward tOne :=
  C9_forward_deterministic cellA cellA tOne tOne rfl rfl

/-- C10: the forward pass never mutates the architecture-parameter store: in
state-passing form the post-state equals the pre-state, so every parameter
vector after the call equals its value before the call. -/
theorem C10_forward_reads_only (m : PCDARTSSearchSpace) (x : Tensor) :
    ((m.forwardS x).2).arch_parameters = m.arch_parameters
    ∧ (m.forwardS x).2 = m :=
  ⟨rfl, rfl⟩

end
